import Mathlib

/-!
Shallow embedding of the field-cleaning and canonical-naming pipeline of
`src/bot.py` (Invoice-Rename-AI), together with proofs of the spec claims.

Conventions of the embedding:
* Python strings are Lean `String`s; character-level work happens on `String.data`.
* The character classes of the regexes are restricted to their ASCII meaning,
  which is the scope of every literal appearing in the source patterns.
* The one wall-clock read in `create_new_name` is passed in as the parameter
  `today`, the result of Python `datetime.now().strftime` with the
  year-month-day format string.
* The filesystem state seen by `rename_file` and `process_multiple_invoices`
  is modeled as the list of existing names; the external document-QA call made
  by `process_single_invoice` is modeled as a function parameter.
-/

/-- Sentinel for a failed extraction, `UNKNOWN_ATTRIBUTE_TEXT` in the source. -/
def UNKNOWN_ATTRIBUTE_TEXT : String := "UNKNOWN"

/-- Characters matched by the regex class of filename-illegal characters
used throughout `bot.py`: `< > : " / \ | ? *`. -/
def isIllegalChar (c : Char) : Bool :=
  c == '<' || c == '>' || c == ':' || c == '"' || c == '/' || c == '\\' ||
  c == '|' || c == '?' || c == '*'

/-- Characters matched by the regex whitespace class (ASCII scope). -/
def isWhitespaceChar (c : Char) : Bool :=
  c == ' ' || c == '\t' || c == '\n' || c == '\r' || c == '\x0b' || c == '\x0c'

/-- Characters matched by the class of whitespace, hyphen and dot used by
the separator-collapsing substitution in `clean_company_name`. -/
def isSepChar (c : Char) : Bool :=
  isWhitespaceChar c || c == '-' || c == '.'

/-- Embedding of the substitution deleting every filename-illegal character. -/
def removeIllegal (l : List Char) : List Char :=
  l.filter (fun c => !(isIllegalChar c))

/-- Embedding of the anchored substitution deleting one leading `www.`. -/
def stripWww (l : List Char) : List Char :=
  if l.take 4 = ['w', 'w', 'w', '.'] then l.drop 4 else l

/-- Embedding of the anchored substitution deleting one trailing `.com`. -/
def stripDotCom (l : List Char) : List Char :=
  if l.reverse.take 4 = ['m', 'o', 'c', '.'] then l.take (l.length - 4) else l

/-- Embedding of a substitution replacing every maximal run of characters
satisfying `p` by one underscore.  The flag records whether the previous
character was part of a run. -/
def collapseRuns (p : Char → Bool) (prevRun : Bool) : List Char → List Char
  | [] => []
  | c :: rest =>
    if p c then
      (if prevRun then collapseRuns p true rest else '_' :: collapseRuns p true rest)
    else c :: collapseRuns p false rest

/-- Embedding of Python `str.strip` with an underscore argument: drop any
leading and trailing underscores. -/
def stripUnderscoreEnds (l : List Char) : List Char :=
  (((l.dropWhile (· == '_')).reverse.dropWhile (· == '_'))).reverse

/-- Embedding of Python `str.strip()` with no argument: drop any leading and
trailing whitespace. -/
def pyStripWs (l : List Char) : List Char :=
  (((l.dropWhile isWhitespaceChar).reverse.dropWhile isWhitespaceChar)).reverse

/-- Character-level pipeline of `clean_company_name` between the sentinel
guard and the final empty-result check: delete illegal characters, strip one
leading `www.` and one trailing `.com`, collapse separator runs to `_`, strip
underscores at both ends, and truncate to 50 characters. -/
def companyPipeline (l : List Char) : List Char :=
  let c1 := removeIllegal l
  let c2 := stripWww c1
  let c3 := stripDotCom c2
  let c4 := collapseRuns isSepChar false c3
  let c5 := stripUnderscoreEnds c4
  if c5.length > 50 then c5.take 50 else c5

/-- Embedding of `clean_company_name` from `src/bot.py`. -/
def clean_company_name (s : String) : String :=
  if s = UNKNOWN_ATTRIBUTE_TEXT then s
  else
    let cleaned := companyPipeline s.data
    if cleaned = [] then UNKNOWN_ATTRIBUTE_TEXT else String.mk cleaned

/-- Characters kept by the second filter of `clean_invoice_number`:
ASCII letters, digits, hyphen and underscore. -/
def isNumberKeepChar (c : Char) : Bool :=
  ('a' ≤ c && c ≤ 'z') || ('A' ≤ c && c ≤ 'Z') || ('0' ≤ c && c ≤ '9') ||
  c == '-' || c == '_'

/-- Character-level pipeline of `clean_invoice_number`: delete illegal
characters and whitespace, then keep only letters, digits, hyphen and
underscore. -/
def numberPipeline (l : List Char) : List Char :=
  (l.filter (fun c => !(isIllegalChar c || isWhitespaceChar c))).filter isNumberKeepChar

/-- Embedding of `clean_invoice_number` from `src/bot.py`. -/
def clean_invoice_number (s : String) : String :=
  if s = UNKNOWN_ATTRIBUTE_TEXT then s
  else
    let cleaned := numberPipeline s.data
    if cleaned = [] then UNKNOWN_ATTRIBUTE_TEXT else String.mk cleaned

/-- Characters kept by the final filter of `clean_invoice_total`: digits,
dot, comma and the four currency glyphs of the source pattern. -/
def isTotalKeepChar (c : Char) : Bool :=
  ('0' ≤ c && c ≤ '9') || c == '.' || c == ',' || c == '$' || c == '€' ||
  c == '£' || c == '¥'

/-- Character-level pipeline of `clean_invoice_total`: delete illegal
characters, delete all whitespace, then keep only the amount characters. -/
def totalPipeline (l : List Char) : List Char :=
  ((removeIllegal l).filter (fun c => !(isWhitespaceChar c))).filter isTotalKeepChar

/-- Embedding of `clean_invoice_total` from `src/bot.py`. -/
def clean_invoice_total (s : String) : String :=
  if s = UNKNOWN_ATTRIBUTE_TEXT then s
  else
    let cleaned := totalPipeline s.data
    if cleaned = [] then UNKNOWN_ATTRIBUTE_TEXT else String.mk cleaned

/-- Numeric value of a decimal digit character. -/
def decValChar (c : Char) : Nat := c.toNat - '0'.toNat

/-- Embedding of Python `int` applied to a string of decimal digits. -/
def decVal (l : List Char) : Nat :=
  l.foldl (fun a c => 10 * a + decValChar c) 0

/-- Fuel-based helper for the decimal representation; the fuel only makes
the recursion structural and is never exhausted when it starts at least at
the number itself. -/
def toDecAux (fuel n : Nat) : List Char :=
  match fuel with
  | 0 => []
  | fuel + 1 =>
    if n < 10 then [Nat.digitChar n]
    else toDecAux fuel (n / 10) ++ [Nat.digitChar (n % 10)]

/-- Decimal digit list of a natural number, most significant digit first;
embedding of Python `str` and f-string formatting of a nonnegative integer. -/
def toDec (n : Nat) : List Char := toDecAux (n + 1) n


/-- String form of `toDec`. -/
def toDecStr (n : Nat) : String := String.mk (toDec n)

/-- Embedding of Python `str.zfill` with width two: pad on the left with
zero characters up to length two. -/
def zfill2 (l : List Char) : List Char :=
  if 2 ≤ l.length then l else List.replicate (2 - l.length) '0' ++ l

/-- Greedy-with-backtracking alternatives for one regex group: take exactly
`n` leading decimal digits of `l` when possible. -/
def takeIfDigits (l : List Char) (n : Nat) : Option (List Char × List Char) :=
  let h := l.take n
  if h.length = n && h.all Char.isDigit then some (h, l.drop n) else none

/-- Alternatives, longest first, for a group of one or two digits. -/
def digitAlts12 (l : List Char) : List (List Char × List Char) :=
  [2, 1].filterMap (takeIfDigits l)

/-- Alternatives, longest first, for a group of two to four digits. -/
def digitAlts24 (l : List Char) : List (List Char × List Char) :=
  [4, 3, 2].filterMap (takeIfDigits l)

/-- Characters matched by the separator class of the numeric date patterns. -/
def dateSepOk (c : Char) : Bool := c == '/' || c == '-'

/-- Final group of a numeric date pattern: greedily take up to `maxN`
leading digits, requiring at least `minN`.  Nothing follows this group in
either pattern, so no backtracking into it is possible. -/
def tailDigitGroup (l : List Char) (maxN minN : Nat) : Option (List Char) :=
  let g := (l.take maxN).takeWhile Char.isDigit
  if minN ≤ g.length then some g else none

/-- Continuation guarded by one separator character: fail on the empty
rest, fail on a non-separator, and otherwise continue after the separator. -/
def sepThen (k : List Char → Option (List Char × List Char × List Char)) :
    List Char → Option (List Char × List Char × List Char)
  | [] => none
  | c :: rest => if dateSepOk c then k rest else none

/-- Assembly of the three captured groups once the final group either
matched or failed. -/
def withTail (g1 g2 : List Char) :
    Option (List Char) → Option (List Char × List Char × List Char)
  | some g3 => some (g1, g2, g3)
  | none => none

/-- Anchored match of a numeric date shape: a first digit group drawn from
`firstAlts`, a separator, a one-or-two digit group, a separator, and a final
digit group bounded by `tailMaxN` and `tailMinN`.  Alternatives are tried in
the backtracking order of the regex engine: longer first group first, then
longer second group; the final group is greedy with nothing after it. -/
def matchShapeAt (firstAlts : List Char → List (List Char × List Char))
    (tailMaxN tailMinN : Nat) (l : List Char) :
    Option (List Char × List Char × List Char) :=
  (firstAlts l).findSome? (fun p =>
    sepThen (fun r2 =>
      (digitAlts12 r2).findSome? (fun q =>
        sepThen (fun r4 =>
          withTail p.1 q.1 (tailDigitGroup r4 tailMaxN tailMinN)) q.2)) p.2)

/-- Anchored match of the first numeric date pattern of `clean_date`:
one-or-two digits, a slash or hyphen, one-or-two digits, a slash or hyphen,
two-to-four digits. -/
def matchP1At (l : List Char) : Option (List Char × List Char × List Char) :=
  matchShapeAt digitAlts12 4 2 l

/-- Anchored match of the second numeric date pattern of `clean_date`:
two-to-four digits, a separator, one-or-two digits, a separator, one-or-two
digits. -/
def matchP2At (l : List Char) : Option (List Char × List Char × List Char) :=
  matchShapeAt digitAlts24 2 1 l

/-- Embedding of `re.search` for the first numeric date pattern: try an
anchored match at each position from the left. -/
def searchP1 : List Char → Option (List Char × List Char × List Char)
  | [] => none
  | c :: rest =>
    match matchP1At (c :: rest) with
    | some r => some r
    | none => searchP1 rest

/-- Embedding of `re.search` for the second numeric date pattern. -/
def searchP2 : List Char → Option (List Char × List Char × List Char)
  | [] => none
  | c :: rest =>
    match matchP2At (c :: rest) with
    | some r => some r
    | none => searchP2 rest

/-- Reformatting step of the numeric branch of `clean_date`: when the third
captured group has four characters the groups are emitted in order with the
second and third zero-padded; otherwise the third group is expanded as a
two-digit year and emitted first. -/
def formatNumericDate (g1 g2 g3 : List Char) : String :=
  if g3.length = 4 then
    String.mk (g1 ++ '-' :: (zfill2 g2 ++ '-' :: zfill2 g3))
  else
    let year := if decVal g3 < 50 then decVal g3 + 2000 else decVal g3 + 1900
    String.mk (toDec year ++ '-' :: (zfill2 g1 ++ '-' :: zfill2 g2))

/-- Fallback sanitization of `clean_date` when no pattern produces a
reformatting: delete illegal characters, strip surrounding whitespace, and
replace each whitespace run with one underscore. -/
def dateFallback (l : List Char) : List Char :=
  collapseRuns isWhitespaceChar false (pyStripWs (removeIllegal l))

/-- Embedding of `clean_date` from `src/bot.py`.  The two month-name
patterns of the source are matched after the numeric ones, but a month-name
match always has a non-digit group, fails the all-digits test of the loop
body, and never returns; so only the two numeric searches and the fallback
determine the result. -/
def clean_date (s : String) : String :=
  if s = UNKNOWN_ATTRIBUTE_TEXT then s
  else
    match searchP1 s.data with
    | some (g1, g2, g3) => formatNumericDate g1 g2 g3
    | none =>
      match searchP2 s.data with
      | some (g1, g2, g3) => formatNumericDate g1 g2 g3
      | none =>
        let cleaned := dateFallback s.data
        if cleaned = [] then UNKNOWN_ATTRIBUTE_TEXT else String.mk cleaned

/-- Fixed-shape record of the four extracted invoice fields. -/
structure InvoiceRecord where
  company_name : String
  invoice_number : String
  invoice_total : String
  date : String
deriving DecidableEq

/-- Embedding of `clean_all`: apply the four cleaners to the four fields. -/
def clean_all (r : InvoiceRecord) : InvoiceRecord :=
  { company_name := clean_company_name r.company_name
    invoice_number := clean_invoice_number r.invoice_number
    invoice_total := clean_invoice_total r.invoice_total
    date := clean_date r.date }

/-- Candidate filename built by `create_new_name` before the length check:
the four components in source order (company, number, date, total) with the
sentinel replaced by its fixed fallback, joined by underscores, with the
hardcoded extension appended.  The parameter `today` stands for the current
date string read from the wall clock in the date fallback. -/
def joinedName (today : String) (r : InvoiceRecord) : String :=
  (if r.company_name = UNKNOWN_ATTRIBUTE_TEXT then "UnknownCompany" else r.company_name)
  ++ "_" ++
  (if r.invoice_number = UNKNOWN_ATTRIBUTE_TEXT then "NoNumber" else r.invoice_number)
  ++ "_" ++
  (if r.date = UNKNOWN_ATTRIBUTE_TEXT then today else r.date)
  ++ "_" ++
  (if r.invoice_total = UNKNOWN_ATTRIBUTE_TEXT then "NoAmount" else r.invoice_total)
  ++ ".pdf"

/-- Embedding of `create_new_name` from `src/bot.py`: the joined candidate,
truncated to its first 200 characters with the extension re-appended when it
is longer than 200 characters. -/
def create_new_name (today : String) (r : InvoiceRecord) : String :=
  let filename := joinedName today r
  if filename.length > 200 then String.mk (filename.data.take 200) ++ ".pdf"
  else filename

/-- Embedding of `os.path.splitext` for a bare filename (no directory
separator): split at the last dot, unless every character before that dot is
itself a dot, in which case there is no extension. -/
def splitext (s : String) : String × String :=
  let l := s.data
  match l.reverse.findIdx? (· == '.') with
  | none => (s, "")
  | some k =>
    let i := l.length - 1 - k
    if (l.take i).all (· == '.') then (s, "")
    else (String.mk (l.take i), String.mk (l.drop i))

/-- Collision candidate built in the loop body of `rename_file`: base, one
underscore, the decimal counter, then the extension. -/
def candName (base ext : String) (k : Nat) : String :=
  base ++ "_" ++ toDecStr k ++ ext

/-- Loop of `rename_file` once the initial name was found to exist: try the
counter candidates in order, returning the first one absent from the
directory.  The source loop carries no bound; `fuel` makes the recursion
structural, and `rename_file` passes fuel that is provably never exhausted,
so the fuel-zero branch is unreachable there. -/
def resolveFrom (dir : List String) (base ext : String) : Nat → Nat → String
  | counter, 0 => candName base ext counter
  | counter, fuel + 1 =>
    if candName base ext counter ∈ dir then resolveFrom dir base ext (counter + 1) fuel
    else candName base ext counter

/-- Embedding of the collision-resolution logic of `rename_file` from
`src/bot.py`.  The destination directory is modeled as the list `dir` of
names that currently exist in it; the function returns the chosen filename
(the source additionally performs the `os.rename` side effect and prefixes
the directory path). -/
def rename_file (dir : List String) (new_name : String) : String :=
  if new_name ∈ dir then
    let p := splitext new_name
    resolveFrom dir p.1 p.2 1 dir.length
  else new_name

/-- Per-file entry of the batch report of `process_single_invoice` and
`process_multiple_invoices`.  Keys absent from a Python result dict are
modeled as `none`. -/
structure ProcResult where
  success : Bool
  original_path : String
  new_path : Option String
  new_filename : Option String
  error : Option String
  invoice_data : Option InvoiceRecord
deriving DecidableEq

/-- Failure entry appended by `process_multiple_invoices` for an input path
that does not exist. -/
def fileNotFoundResult (p : String) : ProcResult :=
  { success := false
    original_path := p
    new_path := none
    new_filename := none
    error := some "File not found"
    invoice_data := none }

/-- Embedding of `process_multiple_invoices` from `src/bot.py`.  The
filesystem is modeled by the list `fs` of existing paths, and the whole of
`process_single_invoice` (extraction, cleaning, renaming, and its internal
exception handling) by the function `proc`, since its outcome depends on the
external document-QA model.  The source appends one result per input path in
order: the `proc` result when the path exists, the fixed failure entry
otherwise. -/
def process_multiple_invoices (fs : List String) (proc : String → ProcResult)
    (paths : List String) : List ProcResult :=
  paths.map (fun p => if p ∈ fs then proc p else fileNotFoundResult p)

/-! Generic lemmas about the character-level building blocks. -/

/-- Unpacking a packed character list is the identity. -/
theorem string_data_mk (l : List Char) : (String.mk l).data = l := rfl

theorem toDecAux_fuel_invariant :
    ∀ (n fuel1 fuel2 : Nat), n < fuel1 → n < fuel2 →
      toDecAux fuel1 n = toDecAux fuel2 n := by
  intro n
  induction n using Nat.strong_induction_on with
  | _ n ih =>
    intro fuel1 fuel2 h1 h2
    match fuel1, fuel2 with
    | f1 + 1, f2 + 1 =>
      simp only [toDecAux]
      by_cases hn : n < 10
      · rw [if_pos hn, if_pos hn]
      · rw [if_neg hn, if_neg hn]
        have hd : n / 10 < n := Nat.div_lt_self (by omega) (by omega)
        rw [ih (n / 10) hd (f1) (f2) (by omega) (by omega)]

/-- Unfolding equation of `toDec` in its intended recursive form. -/
theorem toDec_eq (n : Nat) :
    toDec n = if n < 10 then [Nat.digitChar n]
      else toDec (n / 10) ++ [Nat.digitChar (n % 10)] := by
  have hstep : toDecAux (n + 1) n
      = if n < 10 then [Nat.digitChar n]
        else toDecAux n (n / 10) ++ [Nat.digitChar (n % 10)] := rfl
  unfold toDec
  rw [hstep]
  by_cases hn : n < 10
  · rw [if_pos hn, if_pos hn]
  · rw [if_neg hn, if_neg hn]
    have hd : n / 10 < n := Nat.div_lt_self (by omega) (by omega)
    congr 1
    exact toDecAux_fuel_invariant (n / 10) n (n / 10 + 1) hd (by omega)


theorem mem_collapseRuns {p : Char → Bool} {c : Char} :
    ∀ {b : Bool} {l : List Char}, c ∈ collapseRuns p b l → (c ∈ l ∧ p c = false) ∨ c = '_' := by
  intro b l
  induction l generalizing b with
  | nil => intro h; simp [collapseRuns] at h
  | cons a rest ih =>
    intro h
    simp only [collapseRuns] at h
    by_cases hp : p a
    · rw [if_pos hp] at h
      rcases b with _ | _
      · simp only [Bool.false_eq_true, if_false] at h
        rcases List.mem_cons.mp h with rfl | h2
        · exact Or.inr rfl
        · rcases ih h2 with ⟨hm, hf⟩ | he
          · exact Or.inl ⟨List.mem_cons_of_mem a hm, hf⟩
          · exact Or.inr he
      · simp only [if_true] at h
        rcases ih h with ⟨hm, hf⟩ | he
        · exact Or.inl ⟨List.mem_cons_of_mem a hm, hf⟩
        · exact Or.inr he
    · rw [if_neg hp] at h
      rcases List.mem_cons.mp h with rfl | h2
      · exact Or.inl ⟨List.mem_cons_self _ _, Bool.eq_false_iff.mpr hp⟩
      · rcases ih h2 with ⟨hm, hf⟩ | he
        · exact Or.inl ⟨List.mem_cons_of_mem a hm, hf⟩
        · exact Or.inr he

theorem collapseRuns_eq_self {p : Char → Bool} {l : List Char}
    (h : ∀ c ∈ l, p c = false) : ∀ b, collapseRuns p b l = l := by
  induction l with
  | nil => intro b; rfl
  | cons a rest ih =>
    intro b
    have ha : p a = false := h a (List.mem_cons_self a rest)
    simp only [collapseRuns, ha, Bool.false_eq_true, if_false]
    exact congrArg (List.cons a) (ih (fun c hc => h c (List.mem_cons_of_mem a hc)) false)

theorem head?_dropWhile_false {p : Char → Bool} {l : List Char} {x : Char}
    (h : (l.dropWhile p).head? = some x) : p x = false := by
  induction l with
  | nil => simp at h
  | cons a rest ih =>
    rw [List.dropWhile_cons] at h
    by_cases hp : p a
    · rw [if_pos hp] at h; exact ih h
    · rw [if_neg hp] at h
      simp only [List.head?_cons, Option.some.injEq] at h
      rw [← h]; exact Bool.eq_false_iff.mpr hp

theorem dropWhile_eq_self_of_head {p : Char → Bool} {l : List Char}
    (h : ∀ x, l.head? = some x → p x = false) : l.dropWhile p = l := by
  cases l with
  | nil => rfl
  | cons a rest =>
    have := h a rfl
    rw [List.dropWhile_cons, this]
    simp

theorem mem_takeWhile_true {p : Char → Bool} {c : Char} :
    ∀ {l : List Char}, c ∈ l.takeWhile p → p c = true := by
  intro l
  induction l with
  | nil => intro h; simp at h
  | cons a rest ih =>
    intro h
    rw [List.takeWhile_cons] at h
    by_cases hp : p a
    · rw [if_pos hp] at h
      rcases List.mem_cons.mp h with rfl | h2
      · exact hp
      · exact ih h2
    · rw [if_neg hp] at h; simp at h

theorem mem_stripUnderscoreEnds {l : List Char} {c : Char}
    (h : c ∈ stripUnderscoreEnds l) : c ∈ l := by
  unfold stripUnderscoreEnds at h
  rw [List.mem_reverse] at h
  have h1 := (List.dropWhile_sublist (l := (l.dropWhile (· == '_')).reverse)
    (p := (· == '_'))).subset h
  rw [List.mem_reverse] at h1
  exact (List.dropWhile_sublist (p := (· == '_'))).subset h1

theorem head?_stripUnderscoreEnds {l : List Char} {x : Char}
    (h : (stripUnderscoreEnds l).head? = some x) : x ≠ '_' := by
  unfold stripUnderscoreEnds at h
  rw [List.head?_reverse] at h
  have hsuf : ((l.dropWhile (· == '_')).reverse.dropWhile (· == '_')).IsSuffix
      ((l.dropWhile (· == '_')).reverse) := List.dropWhile_suffix _
  obtain ⟨pre, hpre⟩ := hsuf
  have hne : (l.dropWhile (· == '_')).reverse.dropWhile (· == '_') ≠ [] := by
    intro hnil
    rw [hnil] at h
    simp at h
  have h2 : (pre ++ (l.dropWhile (· == '_')).reverse.dropWhile (· == '_')).getLast?
      = some x := by
    rw [List.getLast?_append, h]; rfl
  rw [hpre, List.getLast?_reverse] at h2
  have := head?_dropWhile_false h2
  simpa using this

theorem getLast?_stripUnderscoreEnds {l : List Char} {x : Char}
    (h : (stripUnderscoreEnds l).getLast? = some x) : x ≠ '_' := by
  unfold stripUnderscoreEnds at h
  rw [List.getLast?_reverse] at h
  have := head?_dropWhile_false h
  simpa using this

theorem stripUnderscoreEnds_eq_self {l : List Char}
    (hh : ∀ x, l.head? = some x → x ≠ '_') (hl : ∀ x, l.getLast? = some x → x ≠ '_') :
    stripUnderscoreEnds l = l := by
  unfold stripUnderscoreEnds
  have h1 : l.dropWhile (· == '_') = l := by
    apply dropWhile_eq_self_of_head
    intro x hx
    exact beq_eq_false_iff_ne.mpr (hh x hx)
  rw [h1]
  have h2 : l.reverse.dropWhile (· == '_') = l.reverse := by
    apply dropWhile_eq_self_of_head
    intro x hx
    rw [List.head?_reverse] at hx
    exact beq_eq_false_iff_ne.mpr (hl x hx)
  rw [h2, List.reverse_reverse]

theorem removeIllegal_sub {l : List Char} {c : Char} (h : c ∈ removeIllegal l) :
    c ∈ l ∧ isIllegalChar c = false := by
  unfold removeIllegal at h
  have := List.mem_filter.mp h
  exact ⟨this.1, by simpa using this.2⟩

theorem removeIllegal_eq_self {l : List Char}
    (h : ∀ c ∈ l, isIllegalChar c = false) : removeIllegal l = l := by
  unfold removeIllegal
  rw [List.filter_eq_self]
  intro a ha
  simpa using h a ha

theorem stripWww_sub {l : List Char} {c : Char} (h : c ∈ stripWww l) : c ∈ l := by
  unfold stripWww at h
  split at h
  · exact List.drop_subset _ _ h
  · exact h

theorem stripWww_eq_self {l : List Char} (h : '.' ∉ l) : stripWww l = l := by
  unfold stripWww
  rw [if_neg]
  intro hw
  exact h (List.take_subset 4 l (hw ▸ (by simp : '.' ∈ ['w', 'w', 'w', '.'])))

theorem stripDotCom_sub {l : List Char} {c : Char} (h : c ∈ stripDotCom l) : c ∈ l := by
  unfold stripDotCom at h
  split at h
  · exact List.take_subset _ _ h
  · exact h

theorem stripDotCom_eq_self {l : List Char} (h : '.' ∉ l) : stripDotCom l = l := by
  unfold stripDotCom
  rw [if_neg]
  intro hw
  have : '.' ∈ l.reverse :=
    List.take_subset 4 l.reverse (hw ▸ (by simp : '.' ∈ ['m', 'o', 'c', '.']))
  exact h (List.mem_reverse.mp this)

/-! Invariants of the company-name pipeline and the corrected idempotence. -/

theorem companyPipeline_chars {l : List Char} {c : Char} (h : c ∈ companyPipeline l) :
    isIllegalChar c = false ∧ isSepChar c = false := by
  unfold companyPipeline at h
  simp only at h
  have h5 : c ∈ stripUnderscoreEnds
      (collapseRuns isSepChar false (stripDotCom (stripWww (removeIllegal l)))) := by
    split at h
    · exact List.take_subset _ _ h
    · exact h
  have h4 := mem_stripUnderscoreEnds h5
  rcases mem_collapseRuns h4 with ⟨h3, hsep⟩ | rfl
  · have h2 := stripWww_sub (stripDotCom_sub h3)
    exact ⟨(removeIllegal_sub h2).2, hsep⟩
  · exact ⟨by decide, by decide⟩

theorem companyPipeline_head {l : List Char} {x : Char}
    (h : (companyPipeline l).head? = some x) : x ≠ '_' := by
  unfold companyPipeline at h
  simp only at h
  have h5 : (stripUnderscoreEnds
      (collapseRuns isSepChar false (stripDotCom (stripWww (removeIllegal l))))).head?
      = some x := by
    split at h
    · rw [List.head?_take] at h
      simpa using h
    · exact h
  exact head?_stripUnderscoreEnds h5

theorem companyPipeline_len (l : List Char) : (companyPipeline l).length ≤ 50 := by
  unfold companyPipeline
  simp only
  split
  · simpa using Nat.min_le_left _ _
  · omega

theorem companyPipeline_eq_self {l : List Char}
    (hill : ∀ c ∈ l, isIllegalChar c = false)
    (hsep : ∀ c ∈ l, isSepChar c = false)
    (hh : ∀ x, l.head? = some x → x ≠ '_')
    (hl : ∀ x, l.getLast? = some x → x ≠ '_')
    (hlen : l.length ≤ 50) :
    companyPipeline l = l := by
  have hdot : '.' ∉ l := by
    intro hm
    have := hsep '.' hm
    simp [isSepChar, isWhitespaceChar] at this
  unfold companyPipeline
  simp only
  rw [removeIllegal_eq_self hill, stripWww_eq_self hdot, stripDotCom_eq_self hdot,
    collapseRuns_eq_self hsep, stripUnderscoreEnds_eq_self hh hl, if_neg (by omega)]

theorem clean_company_name_unknown : clean_company_name UNKNOWN_ATTRIBUTE_TEXT
    = UNKNOWN_ATTRIBUTE_TEXT := rfl

set_option maxHeartbeats 1000000 in
theorem clean_company_name_second_id {s : String} (hs : s ≠ UNKNOWN_ATTRIBUTE_TEXT)
    (hlast : ∀ x, (clean_company_name s).data.getLast? = some x → x ≠ '_') :
    clean_company_name (clean_company_name s) = clean_company_name s := by
  by_cases hemp : companyPipeline s.data = []
  · have h1 : clean_company_name s = UNKNOWN_ATTRIBUTE_TEXT := by
      unfold clean_company_name
      rw [if_neg hs]
      simp only
      rw [if_pos hemp]
    rw [h1, clean_company_name_unknown]
  · have h1 : clean_company_name s = String.mk (companyPipeline s.data) := by
      unfold clean_company_name
      rw [if_neg hs]
      simp only
      rw [if_neg hemp]
    by_cases hu : String.mk (companyPipeline s.data) = UNKNOWN_ATTRIBUTE_TEXT
    · rw [h1, hu, clean_company_name_unknown, ← hu]
    · have hlast2 : ∀ x, (companyPipeline s.data).getLast? = some x → x ≠ '_' := by
        intro x hx
        apply hlast x
        rw [h1]
        exact hx
      have hid : companyPipeline (companyPipeline s.data) = companyPipeline s.data := by
        apply companyPipeline_eq_self
        · intro c hc; exact (companyPipeline_chars hc).1
        · intro c hc; exact (companyPipeline_chars hc).2
        · intro x hx; exact companyPipeline_head hx
        · exact hlast2
        · exact companyPipeline_len _
      rw [h1]
      unfold clean_company_name
      rw [if_neg hu]
      simp only
      rw [hid, if_neg hemp]

/-- C4: each of the four cleaning functions maps the sentinel string
UNKNOWN to itself unchanged. -/
theorem claim_C4_sentinel_preserved :
    clean_company_name "UNKNOWN" = "UNKNOWN" ∧
    clean_invoice_number "UNKNOWN" = "UNKNOWN" ∧
    clean_invoice_total "UNKNOWN" = "UNKNOWN" ∧
    clean_date "UNKNOWN" = "UNKNOWN" := by
  refine ⟨rfl, rfl, rfl, rfl⟩

/-- C5 (counterexample): clean_company_name is not idempotent on every
non-sentinel string.  For the 60-character input of 49 letters a, an
underscore, and 10 letters b, the cleaned result is truncated to 50
characters and ends with an underscore, which a second application strips. -/
theorem claim_C5_counterexample :
    (String.mk (List.replicate 49 'a' ++ '_' :: List.replicate 10 'b')
      ≠ UNKNOWN_ATTRIBUTE_TEXT) ∧
    clean_company_name (clean_company_name
      (String.mk (List.replicate 49 'a' ++ '_' :: List.replicate 10 'b')))
    ≠ clean_company_name
      (String.mk (List.replicate 49 'a' ++ '_' :: List.replicate 10 'b')) := by
  refine ⟨by decide, by decide⟩

/-- C5 (amended): for every non-sentinel input whose cleaned result does not
end with an underscore, clean_company_name is idempotent.  A trailing
underscore can only arise from the truncation to 50 characters; on every
other output a second application is the identity. -/
theorem claim_C5_idempotent_unless_trailing_underscore (s : String)
    (hs : s ≠ UNKNOWN_ATTRIBUTE_TEXT)
    (hlast : (clean_company_name s).data.getLast? ≠ some '_') :
    clean_company_name (clean_company_name s) = clean_company_name s := by
  apply clean_company_name_second_id hs
  intro x hx
  intro heq
  rw [heq] at hx
  exact hlast hx

/-- C5 (witness): the amended idempotence applied at a concrete input. -/
theorem claim_C5_witness :
    clean_company_name (clean_company_name "Acme Corp") = clean_company_name "Acme Corp" :=
  claim_C5_idempotent_unless_trailing_underscore "Acme Corp" (by decide) (by decide)

/-- C10: the non-sentinel input UNKNOWN? is mapped by clean_invoice_number
to exactly the sentinel string through its character-stripping path; the
stripped result is nonempty, so the empty-result fallback is not involved. -/
theorem claim_C10_sentinel_collision :
    ("UNKNOWN?" ≠ UNKNOWN_ATTRIBUTE_TEXT) ∧
    clean_invoice_number "UNKNOWN?" = UNKNOWN_ATTRIBUTE_TEXT ∧
    numberPipeline "UNKNOWN?".data ≠ [] := by
  refine ⟨by decide, by decide, by decide⟩

/-- C1: on every record whose joined candidate does not trigger truncation,
create_new_name is exactly the four components joined by underscores in the
fixed order company, number, date, total, with UnknownCompany, NoNumber, the
current date, and NoAmount substituted for sentinel fields, and the pdf
extension appended; in particular the Acme record yields the documented
filename. -/
theorem claim_C1_create_new_name (today : String) (r : InvoiceRecord)
    (h : (joinedName today r).length ≤ 200) :
    create_new_name today r =
      (if r.company_name = UNKNOWN_ATTRIBUTE_TEXT then "UnknownCompany" else r.company_name)
      ++ "_" ++
      (if r.invoice_number = UNKNOWN_ATTRIBUTE_TEXT then "NoNumber" else r.invoice_number)
      ++ "_" ++
      (if r.date = UNKNOWN_ATTRIBUTE_TEXT then today else r.date)
      ++ "_" ++
      (if r.invoice_total = UNKNOWN_ATTRIBUTE_TEXT then "NoAmount" else r.invoice_total)
      ++ ".pdf"
    ∧ create_new_name today
        { company_name := "Acme", invoice_number := "INV123",
          invoice_total := "100.00", date := "2024-01-05" }
      = "Acme_INV123_2024-01-05_100.00.pdf" := by
  constructor
  · unfold create_new_name
    simp only
    rw [if_neg (by omega)]
    rfl
  · rfl

/-- C1 (witness): the theorem applied at the Acme record. -/
theorem claim_C1_witness :
    create_new_name "2025-01-01"
      { company_name := "Acme", invoice_number := "INV123",
        invoice_total := "100.00", date := "2024-01-05" }
    = "Acme_INV123_2024-01-05_100.00.pdf" :=
  (claim_C1_create_new_name "2025-01-01"
    { company_name := "Acme", invoice_number := "INV123",
      invoice_total := "100.00", date := "2024-01-05" } (by decide)).2

/-- C3: when the joined candidate exceeds 200 characters the result is its
first 200 characters with the pdf extension re-appended, and for every
record the result ends in the pdf extension, is nonempty, and has length at
most 204. -/
theorem claim_C3_truncation (today : String) (r : InvoiceRecord) :
    ((joinedName today r).length > 200 →
      create_new_name today r = String.mk ((joinedName today r).data.take 200) ++ ".pdf") ∧
    (∃ pre : String, create_new_name today r = pre ++ ".pdf") ∧
    create_new_name today r ≠ "" ∧
    (create_new_name today r).length ≤ 204 := by
  unfold create_new_name
  simp only
  by_cases hl : (joinedName today r).length > 200
  · rw [if_pos hl]
    refine ⟨fun _ => rfl, ⟨String.mk ((joinedName today r).data.take 200), rfl⟩, ?_, ?_⟩
    · intro he
      have hlen := congrArg String.length he
      rw [String.length_append] at hlen
      have h2 : (".pdf" : String).length = 4 := rfl
      have h0 : ("" : String).length = 0 := rfl
      omega
    · rw [String.length_append]
      have h1 : (String.mk ((joinedName today r).data.take 200)).length
          = ((joinedName today r).data.take 200).length := rfl
      have h3 : ((joinedName today r).data.take 200).length ≤ 200 := by
        rw [List.length_take]
        exact Nat.min_le_left _ _
      have h2 : (".pdf" : String).length = 4 := rfl
      omega
  · rw [if_neg hl]
    refine ⟨fun hc => absurd hc hl, ?_, ?_, by omega⟩
    · exact ⟨(if r.company_name = UNKNOWN_ATTRIBUTE_TEXT then "UnknownCompany" else r.company_name)
        ++ "_" ++
        (if r.invoice_number = UNKNOWN_ATTRIBUTE_TEXT then "NoNumber" else r.invoice_number)
        ++ "_" ++
        (if r.date = UNKNOWN_ATTRIBUTE_TEXT then today else r.date)
        ++ "_" ++
        (if r.invoice_total = UNKNOWN_ATTRIBUTE_TEXT then "NoAmount" else r.invoice_total), rfl⟩
    · intro he
      have hlen := congrArg String.length he
      unfold joinedName at hlen
      rw [String.length_append] at hlen
      have h2 : (".pdf" : String).length = 4 := rfl
      have h0 : ("" : String).length = 0 := rfl
      omega

set_option maxRecDepth 4000 in
/-- C3 (witness): the truncation equality applied at a record with a
250-character company name. -/
theorem claim_C3_witness :
    (joinedName "2025-01-01"
      { company_name := String.mk (List.replicate 250 'a'), invoice_number := "N",
        invoice_total := "1", date := "2024-01-05" }).length > 200 ∧
    create_new_name "2025-01-01"
      { company_name := String.mk (List.replicate 250 'a'), invoice_number := "N",
        invoice_total := "1", date := "2024-01-05" }
    = String.mk ((joinedName "2025-01-01"
        { company_name := String.mk (List.replicate 250 'a'), invoice_number := "N",
          invoice_total := "1", date := "2024-01-05" }).data.take 200) ++ ".pdf" :=
  ⟨by decide, (claim_C3_truncation "2025-01-01"
    { company_name := String.mk (List.replicate 250 'a'), invoice_number := "N",
      invoice_total := "1", date := "2024-01-05" }).1 (by decide)⟩

/-- C2: whenever one of the two numeric patterns matches a non-sentinel
input (the second tried only when the first fails), the reformatting depends
only on whether the third captured group has length four: if so the output
is group one, a hyphen, group two zero-padded, a hyphen, group three
zero-padded; otherwise group three is expanded as a two-digit year (value
below 50 plus 2000, otherwise plus 1900) and emitted first.  In particular
03/15/2024 reformats positionally to 03-15-2024, and final groups 49 and 50
expand to 2049 and 1950. -/
theorem claim_C2_numeric_date (s : String) (g1 g2 g3 : List Char)
    (hs : s ≠ UNKNOWN_ATTRIBUTE_TEXT)
    (h : searchP1 s.data = some (g1, g2, g3) ∨
      (searchP1 s.data = none ∧ searchP2 s.data = some (g1, g2, g3))) :
    (g3.length = 4 →
      clean_date s = String.mk (g1 ++ '-' :: (zfill2 g2 ++ '-' :: zfill2 g3))) ∧
    (g3.length ≠ 4 →
      clean_date s = String.mk (toDec (if decVal g3 < 50 then decVal g3 + 2000
        else decVal g3 + 1900) ++ '-' :: (zfill2 g1 ++ '-' :: zfill2 g2))) ∧
    clean_date "03/15/2024" = "03-15-2024" ∧
    clean_date "1/2/49" = "2049-01-02" ∧
    clean_date "1/2/50" = "1950-01-02" := by
  have hc : clean_date s = formatNumericDate g1 g2 g3 := by
    unfold clean_date
    rw [if_neg hs]
    rcases h with h1 | ⟨h1, h2⟩
    · rw [h1]
    · rw [h1, h2]
  refine ⟨?_, ?_, by decide, by decide, by decide⟩
  · intro h4
    rw [hc]
    unfold formatNumericDate
    rw [if_pos h4]
  · intro h4
    rw [hc]
    unfold formatNumericDate
    rw [if_neg h4]

/-- C2 (witness): the length-four branch applied at the concrete input. -/
theorem claim_C2_witness :
    clean_date "03/15/2024"
      = String.mk (['0','3'] ++ '-' :: (zfill2 ['1','5'] ++ '-' :: zfill2 ['2','0','2','4'])) :=
  (claim_C2_numeric_date "03/15/2024" ['0','3'] ['1','5'] ['2','0','2','4']
    (by decide) (Or.inl (by decide))).1 (by decide)

/-! Filename-safety lemmas: no cleaner output contains an illegal character. -/

theorem illegal_char_cases {c : Char} (h : isIllegalChar c = true) :
    c = '<' ∨ c = '>' ∨ c = ':' ∨ c = '"' ∨ c = '/' ∨ c = '\\' ∨
    c = '|' ∨ c = '?' ∨ c = '*' := by
  unfold isIllegalChar at h
  simp at h
  tauto

theorem numberKeep_not_illegal {c : Char} (h : isNumberKeepChar c = true) :
    isIllegalChar c = false := by
  by_contra hc
  rw [Bool.not_eq_false] at hc
  rcases illegal_char_cases hc with rfl|rfl|rfl|rfl|rfl|rfl|rfl|rfl|rfl <;>
    exact absurd h (by decide)

theorem totalKeep_not_illegal {c : Char} (h : isTotalKeepChar c = true) :
    isIllegalChar c = false := by
  by_contra hc
  rw [Bool.not_eq_false] at hc
  rcases illegal_char_cases hc with rfl|rfl|rfl|rfl|rfl|rfl|rfl|rfl|rfl <;>
    exact absurd h (by decide)

theorem digit_not_illegal {c : Char} (h : c.isDigit = true) :
    isIllegalChar c = false := by
  by_contra hc
  rw [Bool.not_eq_false] at hc
  rcases illegal_char_cases hc with rfl|rfl|rfl|rfl|rfl|rfl|rfl|rfl|rfl <;>
    exact absurd h (by decide)

theorem clean_company_name_cases (s : String) :
    clean_company_name s = UNKNOWN_ATTRIBUTE_TEXT ∨
    (s ≠ UNKNOWN_ATTRIBUTE_TEXT ∧ companyPipeline s.data ≠ [] ∧
     clean_company_name s = String.mk (companyPipeline s.data)) := by
  by_cases hs : s = UNKNOWN_ATTRIBUTE_TEXT
  · subst hs
    exact Or.inl clean_company_name_unknown
  · by_cases hemp : companyPipeline s.data = []
    · left
      unfold clean_company_name
      rw [if_neg hs]
      simp only
      rw [if_pos hemp]
    · right
      refine ⟨hs, hemp, ?_⟩
      unfold clean_company_name
      rw [if_neg hs]
      simp only
      rw [if_neg hemp]

theorem clean_company_name_safe (s : String) :
    ∀ c ∈ (clean_company_name s).data, isIllegalChar c = false := by
  rcases clean_company_name_cases s with h | ⟨-, -, h⟩
  · rw [h]
    decide
  · rw [h]
    intro c hc
    rw [string_data_mk] at hc
    exact (companyPipeline_chars hc).1

theorem clean_invoice_number_cases (s : String) :
    clean_invoice_number s = UNKNOWN_ATTRIBUTE_TEXT ∨
    (s ≠ UNKNOWN_ATTRIBUTE_TEXT ∧ numberPipeline s.data ≠ [] ∧
     clean_invoice_number s = String.mk (numberPipeline s.data)) := by
  by_cases hs : s = UNKNOWN_ATTRIBUTE_TEXT
  · subst hs
    exact Or.inl rfl
  · by_cases hemp : numberPipeline s.data = []
    · left
      unfold clean_invoice_number
      rw [if_neg hs]
      simp only
      rw [if_pos hemp]
    · right
      refine ⟨hs, hemp, ?_⟩
      unfold clean_invoice_number
      rw [if_neg hs]
      simp only
      rw [if_neg hemp]

theorem clean_invoice_total_cases (s : String) :
    clean_invoice_total s = UNKNOWN_ATTRIBUTE_TEXT ∨
    (s ≠ UNKNOWN_ATTRIBUTE_TEXT ∧ totalPipeline s.data ≠ [] ∧
     clean_invoice_total s = String.mk (totalPipeline s.data)) := by
  by_cases hs : s = UNKNOWN_ATTRIBUTE_TEXT
  · subst hs
    exact Or.inl rfl
  · by_cases hemp : totalPipeline s.data = []
    · left
      unfold clean_invoice_total
      rw [if_neg hs]
      simp only
      rw [if_pos hemp]
    · right
      refine ⟨hs, hemp, ?_⟩
      unfold clean_invoice_total
      rw [if_neg hs]
      simp only
      rw [if_neg hemp]

theorem clean_date_cases (s : String) :
    clean_date s = UNKNOWN_ATTRIBUTE_TEXT ∨
    (∃ g1 g2 g3, (searchP1 s.data = some (g1, g2, g3) ∨
        (searchP1 s.data = none ∧ searchP2 s.data = some (g1, g2, g3))) ∧
      clean_date s = formatNumericDate g1 g2 g3) ∨
    (s ≠ UNKNOWN_ATTRIBUTE_TEXT ∧ searchP1 s.data = none ∧ searchP2 s.data = none ∧
     dateFallback s.data ≠ [] ∧ clean_date s = String.mk (dateFallback s.data)) := by
  by_cases hs : s = UNKNOWN_ATTRIBUTE_TEXT
  · subst hs
    exact Or.inl rfl
  · rcases h1 : searchP1 s.data with _ | ⟨⟨g1, g2, g3⟩⟩
    · rcases h2 : searchP2 s.data with _ | ⟨⟨g1, g2, g3⟩⟩
      · by_cases hemp : dateFallback s.data = []
        · left
          unfold clean_date
          rw [if_neg hs, h1, h2]
          simp only
          rw [if_pos hemp]
        · right; right
          refine ⟨hs, rfl, rfl, hemp, ?_⟩
          unfold clean_date
          rw [if_neg hs, h1, h2]
          simp only
          rw [if_neg hemp]
      · right; left
        refine ⟨g1, g2, g3, Or.inr ⟨rfl, rfl⟩, ?_⟩
        unfold clean_date
        rw [if_neg hs, h1, h2]
    · right; left
      refine ⟨g1, g2, g3, Or.inl rfl, ?_⟩
      unfold clean_date
      rw [if_neg hs, h1]

theorem clean_invoice_number_safe (s : String) :
    ∀ c ∈ (clean_invoice_number s).data, isIllegalChar c = false := by
  rcases clean_invoice_number_cases s with h | ⟨-, -, h⟩
  · rw [h]
    decide
  · rw [h]
    intro c hc
    rw [string_data_mk] at hc
    exact numberKeep_not_illegal (List.mem_filter.mp hc).2

theorem clean_invoice_total_safe (s : String) :
    ∀ c ∈ (clean_invoice_total s).data, isIllegalChar c = false := by
  rcases clean_invoice_total_cases s with h | ⟨-, -, h⟩
  · rw [h]
    decide
  · rw [h]
    intro c hc
    rw [string_data_mk] at hc
    exact totalKeep_not_illegal (List.mem_filter.mp hc).2

/-! Digit lemmas for the date matcher. -/

theorem takeIfDigits_digits {l : List Char} {n : Nat} {g rest : List Char}
    (h : takeIfDigits l n = some (g, rest)) : ∀ c ∈ g, c.isDigit = true := by
  unfold takeIfDigits at h
  simp only at h
  split at h
  · rename_i hcond
    rw [Option.some.injEq, Prod.mk.injEq] at h
    obtain ⟨hg, -⟩ := h
    rw [Bool.and_eq_true, List.all_eq_true] at hcond
    intro c hc
    rw [← hg] at hc
    exact hcond.2 c hc
  · exact absurd h (by simp)

theorem filterMap_takeIfDigits_digits {l : List Char} {ns : List Nat}
    {pr : List Char × List Char} (h : pr ∈ ns.filterMap (takeIfDigits l)) :
    ∀ c ∈ pr.1, c.isDigit = true := by
  rw [List.mem_filterMap] at h
  obtain ⟨n, -, hn⟩ := h
  obtain ⟨g, rest⟩ := pr
  exact takeIfDigits_digits hn

theorem digitAlts12_digits {l : List Char} {pr : List Char × List Char}
    (h : pr ∈ digitAlts12 l) : ∀ c ∈ pr.1, c.isDigit = true :=
  filterMap_takeIfDigits_digits h

theorem digitAlts24_digits {l : List Char} {pr : List Char × List Char}
    (h : pr ∈ digitAlts24 l) : ∀ c ∈ pr.1, c.isDigit = true :=
  filterMap_takeIfDigits_digits h

theorem tailDigitGroup_digits {l : List Char} {maxN minN : Nat} {g : List Char}
    (h : tailDigitGroup l maxN minN = some g) : ∀ c ∈ g, c.isDigit = true := by
  unfold tailDigitGroup at h
  simp only at h
  split at h
  · rw [Option.some.injEq] at h
    intro c hc
    rw [← h] at hc
    exact mem_takeWhile_true hc
  · exact absurd h (by simp)

theorem sepThen_some {k : List Char → Option (List Char × List Char × List Char)}
    {l : List Char} {r : List Char × List Char × List Char}
    (h : sepThen k l = some r) :
    ∃ c rest, l = c :: rest ∧ dateSepOk c = true ∧ k rest = some r := by
  cases l with
  | nil => simp [sepThen] at h
  | cons c rest =>
    rw [sepThen] at h
    split at h
    · exact ⟨c, rest, rfl, by assumption, h⟩
    · exact absurd h (by simp)

theorem withTail_some {g1 g2 : List Char} {t : Option (List Char)}
    {a b c : List Char} (h : withTail g1 g2 t = some (a, b, c)) :
    g1 = a ∧ g2 = b ∧ t = some c := by
  cases t with
  | none => simp [withTail] at h
  | some g3 =>
    rw [withTail, Option.some.injEq, Prod.mk.injEq, Prod.mk.injEq] at h
    exact ⟨h.1, h.2.1, by rw [h.2.2]⟩

theorem matchShapeAt_digits {firstAlts : List Char → List (List Char × List Char)}
    {tailMaxN tailMinN : Nat} {l : List Char} {g1 g2 g3 : List Char}
    (hfa : ∀ (m : List Char) (pr : List Char × List Char),
      pr ∈ firstAlts m → ∀ c ∈ pr.1, c.isDigit = true)
    (h : matchShapeAt firstAlts tailMaxN tailMinN l = some (g1, g2, g3)) :
    (∀ c ∈ g1, c.isDigit = true) ∧ (∀ c ∈ g2, c.isDigit = true) ∧
    (∀ c ∈ g3, c.isDigit = true) := by
  unfold matchShapeAt at h
  obtain ⟨p, hp, hfp⟩ := List.exists_of_findSome?_eq_some h
  obtain ⟨s1, r2, -, -, hk1⟩ := sepThen_some hfp
  obtain ⟨q, hq, hfq⟩ := List.exists_of_findSome?_eq_some hk1
  obtain ⟨s2, r4, -, -, hk2⟩ := sepThen_some hfq
  obtain ⟨hg1, hg2, ht⟩ := withTail_some hk2
  refine ⟨?_, ?_, tailDigitGroup_digits ht⟩
  · rw [← hg1]
    exact hfa l p hp
  · rw [← hg2]
    exact digitAlts12_digits hq

theorem searchP1_digits :
    ∀ {l : List Char} {g1 g2 g3 : List Char}, searchP1 l = some (g1, g2, g3) →
      (∀ c ∈ g1, c.isDigit = true) ∧ (∀ c ∈ g2, c.isDigit = true) ∧
      (∀ c ∈ g3, c.isDigit = true) := by
  intro l
  induction l with
  | nil => intro g1 g2 g3 h; simp [searchP1] at h
  | cons a rest ih =>
    intro g1 g2 g3 h
    rcases hm : matchP1At (a :: rest) with _ | r
    · rw [searchP1, hm] at h
      exact ih h
    · rw [searchP1, hm] at h
      rw [Option.some.injEq] at h
      subst h
      exact matchShapeAt_digits (fun m pr hpr => digitAlts12_digits hpr) hm

theorem searchP2_digits :
    ∀ {l : List Char} {g1 g2 g3 : List Char}, searchP2 l = some (g1, g2, g3) →
      (∀ c ∈ g1, c.isDigit = true) ∧ (∀ c ∈ g2, c.isDigit = true) ∧
      (∀ c ∈ g3, c.isDigit = true) := by
  intro l
  induction l with
  | nil => intro g1 g2 g3 h; simp [searchP2] at h
  | cons a rest ih =>
    intro g1 g2 g3 h
    rcases hm : matchP2At (a :: rest) with _ | r
    · rw [searchP2, hm] at h
      exact ih h
    · rw [searchP2, hm] at h
      rw [Option.some.injEq] at h
      subst h
      exact matchShapeAt_digits (fun m pr hpr => digitAlts24_digits hpr) hm

theorem zfill2_mem {l : List Char} {c : Char} (h : c ∈ zfill2 l) : c = '0' ∨ c ∈ l := by
  unfold zfill2 at h
  split at h
  · exact Or.inr h
  · rw [List.mem_append] at h
    rcases h with h | h
    · exact Or.inl (List.eq_of_mem_replicate h)
    · exact Or.inr h

theorem toDec_digits (n : Nat) : ∀ c ∈ toDec n, c.isDigit = true := by
  induction n using Nat.strong_induction_on with
  | _ n ih =>
    rw [toDec_eq]
    have hdc : ∀ d, d < 10 → (Nat.digitChar d).isDigit = true := by decide
    by_cases hn : n < 10
    · rw [if_pos hn]
      intro c hc
      rw [List.mem_singleton] at hc
      subst hc
      exact hdc n hn
    · rw [if_neg hn]
      intro c hc
      rw [List.mem_append] at hc
      rcases hc with hc | hc
      · exact ih (n / 10) (Nat.div_lt_self (by omega) (by omega)) c hc
      · rw [List.mem_singleton] at hc
        subst hc
        exact hdc (n % 10) (Nat.mod_lt n (by omega))

theorem formatNumericDate_safe {g1 g2 g3 : List Char}
    (h1 : ∀ c ∈ g1, c.isDigit = true) (h2 : ∀ c ∈ g2, c.isDigit = true)
    (h3 : ∀ c ∈ g3, c.isDigit = true) :
    ∀ c ∈ (formatNumericDate g1 g2 g3).data, isIllegalChar c = false := by
  unfold formatNumericDate
  split
  · intro c hc
    rw [string_data_mk] at hc
    simp only [List.mem_append, List.mem_cons] at hc
    rcases hc with hc | rfl | hc | rfl | hc
    · exact digit_not_illegal (h1 c hc)
    · decide
    · rcases zfill2_mem hc with rfl | hc
      · decide
      · exact digit_not_illegal (h2 c hc)
    · decide
    · rcases zfill2_mem hc with rfl | hc
      · decide
      · exact digit_not_illegal (h3 c hc)
  · intro c hc
    simp only at hc
    simp only [List.mem_append, List.mem_cons] at hc
    rcases hc with hc | rfl | hc | rfl | hc
    · exact digit_not_illegal (toDec_digits _ c hc)
    · decide
    · rcases zfill2_mem hc with rfl | hc
      · decide
      · exact digit_not_illegal (h1 c hc)
    · decide
    · rcases zfill2_mem hc with rfl | hc
      · decide
      · exact digit_not_illegal (h2 c hc)

theorem mem_pyStripWs {l : List Char} {c : Char} (h : c ∈ pyStripWs l) : c ∈ l := by
  unfold pyStripWs at h
  rw [List.mem_reverse] at h
  have h1 := (List.dropWhile_sublist (l := (l.dropWhile isWhitespaceChar).reverse)
    (p := isWhitespaceChar)).subset h
  rw [List.mem_reverse] at h1
  exact (List.dropWhile_sublist (p := isWhitespaceChar)).subset h1

theorem dateFallback_safe (l : List Char) :
    ∀ c ∈ dateFallback l, isIllegalChar c = false := by
  intro c hc
  unfold dateFallback at hc
  rcases mem_collapseRuns hc with ⟨hm, -⟩ | rfl
  · exact (removeIllegal_sub (mem_pyStripWs hm)).2
  · decide

theorem clean_date_safe (s : String) :
    ∀ c ∈ (clean_date s).data, isIllegalChar c = false := by
  rcases clean_date_cases s with h | ⟨g1, g2, g3, hm, h⟩ | ⟨-, -, -, -, h⟩
  · rw [h]
    decide
  · rw [h]
    have hd : (∀ c ∈ g1, c.isDigit = true) ∧ (∀ c ∈ g2, c.isDigit = true) ∧
        (∀ c ∈ g3, c.isDigit = true) := by
      rcases hm with hm | ⟨-, hm⟩
      · exact searchP1_digits hm
      · exact searchP2_digits hm
    exact formatNumericDate_safe hd.1 hd.2.1 hd.2.2
  · rw [h]
    intro c hc
    rw [string_data_mk] at hc
    exact dateFallback_safe s.data c hc

/-- C7: the output of each of the four cleaning functions contains none of
the filename-illegal characters, on every input, covering the numeric
reformatting branch and the fallback-sanitization branch of clean_date. -/
theorem claim_C7_filename_safety (s : String) :
    ((clean_company_name s).data.all (fun c => !(isIllegalChar c)) = true) ∧
    ((clean_invoice_number s).data.all (fun c => !(isIllegalChar c)) = true) ∧
    ((clean_invoice_total s).data.all (fun c => !(isIllegalChar c)) = true) ∧
    ((clean_date s).data.all (fun c => !(isIllegalChar c)) = true) := by
  refine ⟨?_, ?_, ?_, ?_⟩ <;> rw [List.all_eq_true]
  · intro c hc
    rw [Bool.not_eq_eq_eq_not, Bool.not_true]
    exact clean_company_name_safe s c hc
  · intro c hc
    rw [Bool.not_eq_eq_eq_not, Bool.not_true]
    exact clean_invoice_number_safe s c hc
  · intro c hc
    rw [Bool.not_eq_eq_eq_not, Bool.not_true]
    exact clean_invoice_total_safe s c hc
  · intro c hc
    rw [Bool.not_eq_eq_eq_not, Bool.not_true]
    exact clean_date_safe s c hc

theorem string_mk_ne_empty {l : List Char} (h : l ≠ []) : String.mk l ≠ "" := by
  intro he
  apply h
  have hd := congrArg String.data he
  rw [string_data_mk] at hd
  simpa using hd

theorem formatNumericDate_ne_empty (g1 g2 g3 : List Char) :
    formatNumericDate g1 g2 g3 ≠ "" := by
  unfold formatNumericDate
  split
  · apply string_mk_ne_empty
    simp
  · simp only
    apply string_mk_ne_empty
    simp

/-- C8: each cleaning function is a total function on strings and never
returns the empty string; whenever the internal character pipeline comes out
empty on a non-sentinel input (for clean_date, whenever the fallback
sanitization applies and comes out empty), the function returns the sentinel
instead. -/
theorem claim_C8_total_never_empty (s : String) :
    (clean_company_name s ≠ "" ∧ clean_invoice_number s ≠ "" ∧
     clean_invoice_total s ≠ "" ∧ clean_date s ≠ "") ∧
    ((s ≠ UNKNOWN_ATTRIBUTE_TEXT → companyPipeline s.data = [] →
        clean_company_name s = UNKNOWN_ATTRIBUTE_TEXT) ∧
     (s ≠ UNKNOWN_ATTRIBUTE_TEXT → numberPipeline s.data = [] →
        clean_invoice_number s = UNKNOWN_ATTRIBUTE_TEXT) ∧
     (s ≠ UNKNOWN_ATTRIBUTE_TEXT → totalPipeline s.data = [] →
        clean_invoice_total s = UNKNOWN_ATTRIBUTE_TEXT) ∧
     (s ≠ UNKNOWN_ATTRIBUTE_TEXT → searchP1 s.data = none → searchP2 s.data = none →
        dateFallback s.data = [] → clean_date s = UNKNOWN_ATTRIBUTE_TEXT)) := by
  constructor
  · refine ⟨?_, ?_, ?_, ?_⟩
    · rcases clean_company_name_cases s with h | ⟨-, hne, h⟩ <;> rw [h]
      · decide
      · exact string_mk_ne_empty hne
    · rcases clean_invoice_number_cases s with h | ⟨-, hne, h⟩ <;> rw [h]
      · decide
      · exact string_mk_ne_empty hne
    · rcases clean_invoice_total_cases s with h | ⟨-, hne, h⟩ <;> rw [h]
      · decide
      · exact string_mk_ne_empty hne
    · rcases clean_date_cases s with h | ⟨g1, g2, g3, -, h⟩ | ⟨-, -, -, hne, h⟩ <;> rw [h]
      · decide
      · exact formatNumericDate_ne_empty g1 g2 g3
      · exact string_mk_ne_empty hne
  · refine ⟨?_, ?_, ?_, ?_⟩
    · intro hs hemp
      unfold clean_company_name
      rw [if_neg hs]
      simp only
      rw [if_pos hemp]
    · intro hs hemp
      unfold clean_invoice_number
      rw [if_neg hs]
      simp only
      rw [if_pos hemp]
    · intro hs hemp
      unfold clean_invoice_total
      rw [if_neg hs]
      simp only
      rw [if_pos hemp]
    · intro hs h1 h2 hemp
      unfold clean_date
      rw [if_neg hs, h1, h2]
      simp only
      rw [if_pos hemp]

/-- C8 (witness): on the input of one question mark every internal pipeline
is empty and every cleaner returns the sentinel. -/
theorem claim_C8_witness :
    clean_company_name "?" = UNKNOWN_ATTRIBUTE_TEXT ∧
    clean_invoice_number "?" = UNKNOWN_ATTRIBUTE_TEXT ∧
    clean_invoice_total "?" = UNKNOWN_ATTRIBUTE_TEXT ∧
    clean_date "?" = UNKNOWN_ATTRIBUTE_TEXT := by
  obtain ⟨-, h2⟩ := claim_C8_total_never_empty "?"
  exact ⟨h2.1 (by decide) (by decide), h2.2.1 (by decide) (by decide),
    h2.2.2.1 (by decide) (by decide),
    h2.2.2.2 (by decide) (by decide) (by decide) (by decide)⟩

/-- C9: the batch processor returns exactly one result per input path in
order; a path absent from the filesystem yields the fixed failure record
with error text File not found and no invoice data, without affecting the
other entries; and a batch of three paths of which exactly the middle one is
missing yields two successes and one failure whose invoice data is none,
provided processing of the two existing files succeeds. -/
theorem claim_C9_batch_isolation (fs : List String) (proc : String → ProcResult)
    (paths : List String) (p1 p2 p3 : String)
    (h1 : p1 ∈ fs) (h2 : p2 ∉ fs) (h3 : p3 ∈ fs)
    (hs1 : (proc p1).success = true) (hs3 : (proc p3).success = true) :
    (process_multiple_invoices fs proc paths).length = paths.length ∧
    (∀ (i : Nat) (p : String), paths[i]? = some p → p ∉ fs →
      (process_multiple_invoices fs proc paths)[i]? = some (fileNotFoundResult p)) ∧
    (fileNotFoundResult p2).success = false ∧
    (fileNotFoundResult p2).error = some "File not found" ∧
    (fileNotFoundResult p2).invoice_data = none ∧
    ((process_multiple_invoices fs proc [p1, p2, p3]).filter
        (fun r => r.success)).length = 2 ∧
    (process_multiple_invoices fs proc [p1, p2, p3]).filter
        (fun r => !(r.success)) = [fileNotFoundResult p2] := by
  have hmap : ∀ q (m : List String), q ∈ m →
      process_multiple_invoices fs proc m = m.map
        (fun p => if p ∈ fs then proc p else fileNotFoundResult p) := by
    intro q m _
    rfl
  refine ⟨?_, ?_, rfl, rfl, rfl, ?_, ?_⟩
  · unfold process_multiple_invoices
    exact List.length_map _ _
  · intro i p hp hnfs
    unfold process_multiple_invoices
    rw [List.getElem?_map, hp]
    simp [hnfs]
  · unfold process_multiple_invoices
    simp only [List.map_cons, List.map_nil]
    rw [if_pos h1, if_neg h2, if_pos h3]
    simp only [List.filter, hs1, hs3]
    simp [fileNotFoundResult]
  · unfold process_multiple_invoices
    simp only [List.map_cons, List.map_nil]
    rw [if_pos h1, if_neg h2, if_pos h3]
    simp only [List.filter, hs1, hs3]
    simp [fileNotFoundResult]

/-- C9 (witness): the batch shape applied at a concrete three-path batch
with a constant successful processor. -/
theorem claim_C9_witness :
    (process_multiple_invoices ["a", "c"]
      (fun p => ⟨true, p, some p, some p, none, none⟩) ["a", "b", "c"]).length = 3 ∧
    ((process_multiple_invoices ["a", "c"]
      (fun p => ⟨true, p, some p, some p, none, none⟩) ["a", "b", "c"]).filter
        (fun r => r.success)).length = 2 := by
  obtain ⟨hlen, -, -, -, -, hcnt, -⟩ := claim_C9_batch_isolation ["a", "c"]
    (fun p => ⟨true, p, some p, some p, none, none⟩) ["a", "b", "c"] "a" "b" "c"
    (by decide) (by decide) (by decide) rfl rfl
  exact ⟨hlen, hcnt⟩

/-! Decimal representation lemmas and collision resolution. -/

theorem decVal_append_singleton (l : List Char) (c : Char) :
    decVal (l ++ [c]) = 10 * decVal l + decValChar c := by
  unfold decVal
  rw [List.foldl_append]
  rfl

theorem decVal_toDec (n : Nat) : decVal (toDec n) = n := by
  induction n using Nat.strong_induction_on with
  | _ n ih =>
    rw [toDec_eq]
    have hdc : ∀ d, d < 10 → decValChar (Nat.digitChar d) = d := by decide
    by_cases hn : n < 10
    · rw [if_pos hn]
      have h1 : decVal [Nat.digitChar n] = 10 * 0 + decValChar (Nat.digitChar n) := rfl
      rw [h1, hdc n hn]
      omega
    · rw [if_neg hn]
      rw [decVal_append_singleton]
      rw [ih (n / 10) (Nat.div_lt_self (by omega) (by omega)),
        hdc (n % 10) (Nat.mod_lt n (by omega))]
      omega

theorem toDec_inj {a b : Nat} (h : toDec a = toDec b) : a = b := by
  have hv := congrArg decVal h
  rwa [decVal_toDec, decVal_toDec] at hv

theorem toDec_ne_nil (n : Nat) : toDec n ≠ [] := by
  rw [toDec_eq]
  split
  · simp
  · simp

theorem candName_inj {base ext : String} {j k : Nat}
    (h : candName base ext j = candName base ext k) : j = k := by
  unfold candName at h
  have hd := congrArg String.data h
  simp only [String.data_append] at hd
  have hj : (toDecStr j).data = toDec j := rfl
  have hk : (toDecStr k).data = toDec k := rfl
  rw [hj, hk] at hd
  have h1 := List.append_cancel_right hd
  have h2 := List.append_cancel_left h1
  exact toDec_inj h2

theorem candName_length (base ext : String) (k : Nat) :
    (base ++ ext).length < (candName base ext k).length := by
  unfold candName
  rw [String.length_append, String.length_append, String.length_append,
    String.length_append]
  have h1 : ("_" : String).length = 1 := rfl
  have h2 : (toDecStr k).length = (toDec k).length := rfl
  have h4 : 1 ≤ (toDec k).length := by
    cases hh : toDec k with
    | nil => exact absurd hh (toDec_ne_nil k)
    | cons a t => simp
  omega

theorem splitext_append (s : String) : (splitext s).1 ++ (splitext s).2 = s := by
  unfold splitext
  simp only
  rcases h : s.data.reverse.findIdx? (· == '.') with _ | k
  · exact String.append_empty s
  · simp only
    split
    · exact String.append_empty s
    · apply String.ext
      rw [String.data_append, string_data_mk, string_data_mk]
      exact List.take_append_drop _ _

theorem resolveFrom_spec (dir : List String) (base ext : String) :
    ∀ (fuel counter : Nat),
      (∃ i, i < fuel ∧ candName base ext (counter + i) ∉ dir) →
      ∃ i, i < fuel ∧
        resolveFrom dir base ext counter fuel = candName base ext (counter + i) ∧
        candName base ext (counter + i) ∉ dir ∧
        ∀ j, j < i → candName base ext (counter + j) ∈ dir := by
  intro fuel
  induction fuel with
  | zero =>
    intro counter h
    obtain ⟨i, hi, -⟩ := h
    omega
  | succ f ih =>
    intro counter h
    have hstep : resolveFrom dir base ext counter (f + 1)
        = if candName base ext counter ∈ dir
          then resolveFrom dir base ext (counter + 1) f
          else candName base ext counter := rfl
    by_cases hc : candName base ext counter ∈ dir
    · have hex : ∃ i, i < f ∧ candName base ext (counter + 1 + i) ∉ dir := by
        obtain ⟨i, hi, hfree⟩ := h
        rcases i with _ | i2
        · rw [Nat.add_zero] at hfree
          exact absurd hc hfree
        · refine ⟨i2, by omega, ?_⟩
          rwa [show counter + 1 + i2 = counter + (i2 + 1) by omega]
      obtain ⟨i2, hi2, heq, hfree, hall⟩ := ih (counter + 1) hex
      refine ⟨i2 + 1, by omega, ?_, ?_, ?_⟩
      · rw [hstep, if_pos hc, heq,
          show counter + 1 + i2 = counter + (i2 + 1) by omega]
      · rwa [show counter + (i2 + 1) = counter + 1 + i2 by omega]
      · intro j hj
        rcases j with _ | j2
        · rwa [Nat.add_zero]
        · have hh := hall j2 (by omega)
          rwa [show counter + 1 + j2 = counter + (j2 + 1) by omega] at hh
    · refine ⟨0, by omega, ?_, by rwa [Nat.add_zero], by intro j hj; omega⟩
      rw [hstep, if_neg hc, Nat.add_zero]

theorem exists_free_cand (dir : List String) (base ext : String) (name : String)
    (hname : name ∈ dir) (hlen : name.length = (base ++ ext).length) :
    ∃ i, i < dir.length ∧ candName base ext (1 + i) ∉ dir := by
  by_contra hall
  push_neg at hall
  have hinj : Function.Injective (fun i : Nat => candName base ext (1 + i)) := by
    intro a b hab
    simp only at hab
    have := candName_inj hab
    omega
  have hnodup : ((List.range dir.length).map
      (fun i => candName base ext (1 + i))).Nodup :=
    List.Nodup.map hinj (List.nodup_range dir.length)
  have hnodup2 : (name :: (List.range dir.length).map
      (fun i => candName base ext (1 + i))).Nodup := by
    rw [List.nodup_cons]
    refine ⟨?_, hnodup⟩
    intro hmem
    rw [List.mem_map] at hmem
    obtain ⟨i, -, hi⟩ := hmem
    have hcl := candName_length base ext (1 + i)
    rw [hi] at hcl
    omega
  have hsub : (name :: (List.range dir.length).map
      (fun i => candName base ext (1 + i))) ⊆ dir := by
    intro x hx
    rcases List.mem_cons.mp hx with rfl | hx
    · exact hname
    · rw [List.mem_map] at hx
      obtain ⟨i, hi, rfl⟩ := hx
      exact hall i (by rwa [List.mem_range] at hi)
  have hle := (hnodup2.subperm hsub).length_le
  simp only [List.length_cons, List.length_map, List.length_range] at hle
  omega

/-- C6: the collision resolution of rename_file returns the first
non-existing candidate in the sequence name, base_1.ext, base_2.ext and so
on with the counter starting at one; in particular resolving X.pdf against
an existing X.pdf yields X_1.pdf, and against existing X.pdf and X_1.pdf
yields X_2.pdf. -/
theorem claim_C6_collision_resolution (dir : List String) (name : String) :
    rename_file dir name ∉ dir ∧
    (rename_file dir name = name ∨
      (name ∈ dir ∧ ∃ k, 1 ≤ k ∧
        rename_file dir name = candName (splitext name).1 (splitext name).2 k ∧
        ∀ j, 1 ≤ j → j < k →
          candName (splitext name).1 (splitext name).2 j ∈ dir)) ∧
    rename_file ["X.pdf"] "X.pdf" = "X_1.pdf" ∧
    rename_file ["X.pdf", "X_1.pdf"] "X.pdf" = "X_2.pdf" := by
  by_cases hn : name ∈ dir
  · have hlen : name.length = ((splitext name).1 ++ (splitext name).2).length := by
      rw [splitext_append]
    obtain ⟨i, hi, hfree⟩ :=
      exists_free_cand dir (splitext name).1 (splitext name).2 name hn hlen
    obtain ⟨i2, hi2, heq, hfree2, hall⟩ :=
      resolveFrom_spec dir (splitext name).1 (splitext name).2 dir.length 1
        ⟨i, hi, hfree⟩
    have hr : rename_file dir name
        = resolveFrom dir (splitext name).1 (splitext name).2 1 dir.length := by
      unfold rename_file
      rw [if_pos hn]
    refine ⟨?_, Or.inr ⟨hn, 1 + i2, by omega, ?_, ?_⟩, by decide, by decide⟩
    · rw [hr, heq]
      exact hfree2
    · rw [hr, heq]
    · intro j hj1 hjk
      have hh := hall (j - 1) (by omega)
      rwa [show 1 + (j - 1) = j by omega] at hh
  · have hr : rename_file dir name = name := by
      unfold rename_file
      rw [if_neg hn]
    refine ⟨?_, Or.inl hr, by decide, by decide⟩
    rw [hr]
    exact hn

/-- C6 (witness): the resolved name at a concrete collision is absent from
the directory. -/
theorem claim_C6_witness : rename_file ["X.pdf"] "X.pdf" ∉ ["X.pdf"] :=
  (claim_C6_collision_resolution ["X.pdf"] "X.pdf").1
